import Mathlib

/-!
Shallow embedding of `src/exotic/api/nested_linear_fitter.py` (class
`linear_fitter`) and proofs about it.

Conventions of the embedding:
* IEEE floats are modelled by `ℚ`; the NaN sentinels produced by the binning
  code are modelled by a dedicated constructor of an inductive result type.
* numpy arrays are modelled by `List ℚ` (componentwise broadcasting becomes
  `List.map` / `List.zip`).
* `np.round` rounds half to even, which `npRound` reproduces exactly.
* Python exceptions become an `Except` result on the constructor path.
-/

/-- `np.round` on a rational: nearest integer, ties to even
(the IEEE `roundTiesToEven` rule numpy implements). -/
def npRound (x : ℚ) : ℤ :=
  if Int.fract x < 1/2 then ⌊x⌋
  else if 1/2 < Int.fract x then ⌊x⌋ + 1
  else if ⌊x⌋ % 2 = 0 then ⌊x⌋ else ⌊x⌋ + 1

/-- `np.mean` of a list: sum divided by length. -/
def npMean (l : List ℚ) : ℚ := l.sum / l.length

/-- Source line 91, pointwise: `np.round((t - np.mean(bounds['b'])) / np.mean(bounds['m']))`
for one timestamp `t`, where `bm`/`bb` are the two-element bounds intervals
stored under keys `'m'` and `'b'`. -/
def epochOf (bm bb : ℚ × ℚ) (t : ℚ) : ℤ :=
  npRound ((t - npMean [bb.1, bb.2]) / npMean [bm.1, bm.2])

/-- Source line 91 over the whole `data` array:
`self.epochs = np.round((self.data - np.mean(self.bounds['b']))/np.mean(self.bounds['m']))`. -/
def epochsOf (bm bb : ℚ × ℚ) (data : List ℚ) : List ℤ :=
  data.map (epochOf bm bb)

lemma npMean_pair (a b : ℚ) : npMean [a, b] = (a + b) / 2 := by
  simp [npMean]

lemma npRound_cases (x : ℚ) : npRound x = ⌊x⌋ ∨ npRound x = ⌊x⌋ + 1 := by
  unfold npRound
  split_ifs <;> simp

lemma abs_npRound_sub_le (x : ℚ) : |(npRound x : ℚ) - x| ≤ 1/2 := by
  have hx : (⌊x⌋ : ℚ) + Int.fract x = x := Int.floor_add_fract x
  have h0 : 0 ≤ Int.fract x := Int.fract_nonneg x
  have h1 : Int.fract x < 1 := Int.fract_lt_one x
  unfold npRound
  split_ifs with hlt hgt hev
  · rw [abs_sub_comm, abs_of_nonneg (by linarith)]
    linarith
  · push_cast
    rw [abs_of_nonneg (by linarith)]
    linarith
  · have : Int.fract x = 1/2 := by linarith
    rw [abs_sub_comm, abs_of_nonneg (by linarith)]
    linarith
  · have : Int.fract x = 1/2 := by linarith
    push_cast
    rw [abs_of_nonneg (by linarith)]
    linarith

lemma npRound_nearest (x : ℚ) (n : ℤ) : |(npRound x : ℚ) - x| ≤ |(n : ℚ) - x| := by
  rcases eq_or_ne n (npRound x) with h | h
  · rw [h]
  · have hz : npRound x - n ≠ 0 := by omega
    have h1 : (1 : ℤ) ≤ |npRound x - n| := Int.one_le_abs hz
    have h1q : (1 : ℚ) ≤ |(npRound x : ℚ) - (n : ℚ)| := by
      have h1' : ((1 : ℤ) : ℚ) ≤ ((|npRound x - n| : ℤ) : ℚ) := Int.cast_le.mpr h1
      push_cast at h1'
      exact h1'
    have h2 : |(npRound x : ℚ) - x| ≤ 1/2 := abs_npRound_sub_le x
    have h3 : |(npRound x : ℚ) - (n : ℚ)| ≤ |(npRound x : ℚ) - x| + |x - (n : ℚ)| :=
      abs_sub_le _ _ _
    have h4 : |x - (n : ℚ)| = |(n : ℚ) - x| := abs_sub_comm _ _
    linarith

/-- C1: for every dataset and every bounds mapping with keys `'m'` and `'b'`,
the epoch assigned to each timestamp is a nearest integer to
`(time − intercept)/slope`, where the slope and intercept are the midpoints of
the supplied bounds intervals for `'m'` and `'b'`.  (At exact half-integer
arguments `np.round` picks the even one of the two equidistant integers; the
minimality statement below holds for every integer `n`, so the assigned epoch
always minimizes the distance to the quotient.) -/
theorem epoch_round_nearest (bm bb : ℚ × ℚ) (data : List ℚ) (t : ℚ) (n : ℤ) :
    epochsOf bm bb data = data.map (epochOf bm bb) ∧
    |(epochOf bm bb t : ℚ) - (t - (bb.1 + bb.2) / 2) / ((bm.1 + bm.2) / 2)| ≤
      |(n : ℚ) - (t - (bb.1 + bb.2) / 2) / ((bm.1 + bm.2) / 2)| := by
  constructor
  · rfl
  · have h : epochOf bm bb t = npRound ((t - (bb.1 + bb.2) / 2) / ((bm.1 + bm.2) / 2)) := by
      unfold epochOf
      rw [npMean_pair, npMean_pair]
    rw [h]
    exact npRound_nearest _ n

lemma floor_le_npRound (x : ℚ) : ⌊x⌋ ≤ npRound x := by
  unfold npRound
  split_ifs <;> omega

lemma npRound_le_floor_add_one (x : ℚ) : npRound x ≤ ⌊x⌋ + 1 := by
  unfold npRound
  split_ifs <;> omega

lemma npRound_mono {x y : ℚ} (h : x ≤ y) : npRound x ≤ npRound y := by
  have hf : ⌊x⌋ ≤ ⌊y⌋ := Int.floor_le_floor h
  rcases lt_or_eq_of_le hf with hlt | heq
  · calc npRound x ≤ ⌊x⌋ + 1 := npRound_le_floor_add_one x
      _ ≤ ⌊y⌋ := by omega
      _ ≤ npRound y := floor_le_npRound y
  · have hfr : Int.fract x ≤ Int.fract y := by
      have hx : (⌊x⌋ : ℚ) + Int.fract x = x := Int.floor_add_fract x
      have hy : (⌊y⌋ : ℚ) + Int.fract y = y := Int.floor_add_fract y
      have hc : ((⌊x⌋ : ℤ) : ℚ) = ((⌊y⌋ : ℤ) : ℚ) := by rw [heq]
      linarith
    unfold npRound
    rw [← heq]
    split_ifs <;> first | omega | linarith

/-- C9: if the approximate slope derived from the bounds midpoints is positive,
then for every strictly increasing list of timestamps the mapped epoch numbers
(line 91 of the source) form a non-decreasing list of integers.  (The claim's
"spaced approximately by the true period" is a special case: strict increase of
the timestamps already suffices.) -/
theorem epochs_monotone_nondecreasing (bm bb : ℚ × ℚ) (data : List ℚ)
    (hm : 0 < npMean [bm.1, bm.2]) (hinc : data.Chain' (· < ·)) :
    (epochsOf bm bb data).Chain' (· ≤ ·) := by
  unfold epochsOf
  rw [List.chain'_map]
  refine hinc.imp ?_
  intro a b hab
  unfold epochOf
  apply npRound_mono
  rw [div_le_div_iff₀ hm hm]
  nlinarith

/-- Witness for C9 at a concrete input: bounds `m = (2,3)`, `b = (1,1)`,
strictly increasing timestamps `[0, 5/2, 5]`. -/
theorem epochs_monotone_nondecreasing_witness :
    (epochsOf (2, 3) (1, 1) [0, 5/2, 5]).Chain' (· ≤ ·) :=
  epochs_monotone_nondecreasing (2, 3) (1, 1) [0, 5/2, 5]
    (by norm_num [npMean]) (by norm_num [List.chain'_cons])

/-- The two-parameter linear ephemeris model `time(epoch) = slope * epoch + intercept`
(source lines 95 and 118: `model = pars[0]*self.epochs + pars[1]`). -/
def linModel (m b e : ℚ) : ℚ := m * e + b

/-- Source lines 93-96, the closure handed to `ReactiveNestedSampler`:
`loglike(pars) = -0.5 * np.sum(((self.data - (pars[0]*self.epochs + pars[1])) / self.dataerr)**2)`.
The numpy elementwise arithmetic over the three equal-length arrays becomes a
map over their zip. -/
def loglike (m b : ℚ) (epochs data dataerr : List ℚ) : ℚ :=
  -(1/2) * ((data.zip (epochs.zip dataerr)).map
    (fun t => ((t.1 - linModel m b t.2.1) / t.2.2) ^ 2)).sum

/-- The spec's formula for the log of the chi-square likelihood,
`log L(θ) = −0.5 Σᵢ ((dataᵢ − model(θ)ᵢ)/uncertaintyᵢ)²`, written as an indexed
sum rather than an array expression. -/
def loglikeSpec (m b : ℚ) (epochs data dataerr : List ℚ) : ℚ :=
  -(1/2) * ∑ i ∈ Finset.range data.length,
    ((data.getD i 0 - linModel m b (epochs.getD i 0)) / dataerr.getD i 0) ^ 2

lemma zip3_sum_eq (f : ℚ → ℚ → ℚ → ℚ) :
    ∀ (data epochs dataerr : List ℚ), epochs.length = data.length →
      dataerr.length = data.length →
      ((data.zip (epochs.zip dataerr)).map (fun t => f t.1 t.2.1 t.2.2)).sum =
        ∑ i ∈ Finset.range data.length,
          f (data.getD i 0) (epochs.getD i 0) (dataerr.getD i 0)
  | [], _, _, _, _ => by simp
  | d :: ds, [], ss, h1, h2 => by simp at h1
  | d :: ds, e :: es, [], h1, h2 => by simp at h2
  | d :: ds, e :: es, s :: ss, h1, h2 => by
    simp only [List.zip_cons_cons, List.map_cons, List.sum_cons, List.length_cons]
    rw [Finset.sum_range_succ']
    simp only [List.getD_cons_succ, List.getD_cons_zero]
    rw [zip3_sum_eq f ds es ss (by simpa using h1) (by simpa using h2)]
    ring

/-- C2: for every parameter pair `(m, b)` the log-likelihood handed to the
nested sampler equals `−0.5 Σᵢ ((dataᵢ − (m·epochᵢ + b)) / dataerrᵢ)²`, the log
of the chi-square likelihood of the linear model at the mapped epochs. -/
theorem loglike_matches_spec (m b : ℚ) (epochs data dataerr : List ℚ)
    (h1 : epochs.length = data.length) (h2 : dataerr.length = data.length) :
    loglike m b epochs data dataerr = loglikeSpec m b epochs data dataerr := by
  unfold loglike loglikeSpec
  rw [zip3_sum_eq (fun d e s => ((d - linModel m b e) / s) ^ 2) data epochs dataerr h1 h2]

/-- Witness for C2 at a concrete input. -/
theorem loglike_matches_spec_witness :
    loglike 1 2 [0, 1] [3, 4] [1, 2] = loglikeSpec 1 2 [0, 1] [3, 4] [1, 2] :=
  loglike_matches_spec 1 2 [0, 1] [3, 4] [1, 2] rfl rfl

/-- Source line 89: `boundarray = np.array([self.bounds[k] for k in freekeys])`,
abstracted over the number `k` of bound keys in their fixed iteration order;
component `i` holds the `[low, high]` pair of the `i`-th key. -/
def boundLow {k : ℕ} (bnds : Fin k → ℚ × ℚ) : Fin k → ℚ := fun i => (bnds i).1

/-- Source line 90: `bounddiff = np.diff(boundarray,1).reshape(-1)`, i.e.
`high − low` per parameter. -/
def boundDiff {k : ℕ} (bnds : Fin k → ℚ × ℚ) : Fin k → ℚ := fun i => (bnds i).2 - (bnds i).1

/-- Source lines 98-100, the closure handed to `ReactiveNestedSampler`:
`prior_transform(upars) = boundarray[:,0] + bounddiff*upars`, componentwise. -/
def prior_transform {k : ℕ} (bnds : Fin k → ℚ × ℚ) (u : Fin k → ℚ) : Fin k → ℚ :=
  fun i => boundLow bnds i + boundDiff bnds i * u i

/-- C3: the prior transform returns `low + (high − low) · u` componentwise in
the fixed order of the bound keys, and when `low < high` for every parameter it
is a bijection from the unit cube `[0,1]^k` onto the bounded parameter box
(deterministic because it is a plain function of `u`). -/
theorem prior_transform_affine_bijection {k : ℕ} (bnds : Fin k → ℚ × ℚ)
    (h : ∀ i, (bnds i).1 < (bnds i).2) :
    (∀ (u : Fin k → ℚ) (i : Fin k),
      prior_transform bnds u i = (bnds i).1 + ((bnds i).2 - (bnds i).1) * u i) ∧
    Set.BijOn (prior_transform bnds)
      {u : Fin k → ℚ | ∀ i, u i ∈ Set.Icc (0 : ℚ) 1}
      {x : Fin k → ℚ | ∀ i, x i ∈ Set.Icc (bnds i).1 (bnds i).2} := by
  refine ⟨fun u i => rfl, ?_, ?_, ?_⟩
  · -- maps the cube into the box
    intro u hu i
    have hd : 0 < (bnds i).2 - (bnds i).1 := by have := h i; linarith
    obtain ⟨h0, h1⟩ := hu i
    constructor
    · have : 0 ≤ ((bnds i).2 - (bnds i).1) * u i := mul_nonneg (le_of_lt hd) h0
      simp only [prior_transform, boundLow, boundDiff]
      linarith
    · have : ((bnds i).2 - (bnds i).1) * u i ≤ ((bnds i).2 - (bnds i).1) * 1 :=
        mul_le_mul_of_nonneg_left h1 (le_of_lt hd)
      simp only [prior_transform, boundLow, boundDiff]
      linarith
  · -- injective on the cube
    intro u _ v _ he
    funext i
    have hi := congrFun he i
    simp only [prior_transform, boundLow, boundDiff] at hi
    have hd : (bnds i).2 - (bnds i).1 ≠ 0 := by have := h i; intro hc; linarith
    have : ((bnds i).2 - (bnds i).1) * u i = ((bnds i).2 - (bnds i).1) * v i := by linarith
    exact mul_left_cancel₀ hd this
  · -- surjective onto the box
    intro x hx
    refine ⟨fun i => (x i - (bnds i).1) / ((bnds i).2 - (bnds i).1), ?_, ?_⟩
    · intro i
      have hd : 0 < (bnds i).2 - (bnds i).1 := by have := h i; linarith
      obtain ⟨hlo, hhi⟩ := hx i
      constructor
      · exact div_nonneg (by linarith) (le_of_lt hd)
      · rw [div_le_one hd]
        linarith
    · funext i
      simp only [prior_transform, boundLow, boundDiff]
      have hd : (bnds i).2 - (bnds i).1 ≠ 0 := by have := h i; intro hc; linarith
      field_simp

/-- Witness for C3 at a concrete input: two parameters with bounds
`[0,1]` and `[1,3]`. -/
theorem prior_transform_affine_bijection_witness :
    (∀ (u : Fin 2 → ℚ) (i : Fin 2),
      prior_transform ![(0, 1), (1, 3)] u i =
        ((![(0, 1), (1, 3)] : Fin 2 → ℚ × ℚ) i).1 +
          (((![(0, 1), (1, 3)] : Fin 2 → ℚ × ℚ) i).2 -
            ((![(0, 1), (1, 3)] : Fin 2 → ℚ × ℚ) i).1) * u i) ∧
    Set.BijOn (prior_transform ![(0, 1), (1, 3)])
      {u : Fin 2 → ℚ | ∀ i, u i ∈ Set.Icc (0 : ℚ) 1}
      {x : Fin 2 → ℚ | ∀ i,
        x i ∈ Set.Icc ((![(0, 1), (1, 3)] : Fin 2 → ℚ × ℚ) i).1
          ((![(0, 1), (1, 3)] : Fin 2 → ℚ × ℚ) i).2} :=
  prior_transform_affine_bijection ![(0, 1), (1, 3)] (by decide)

/-- `np.min` / `.min()` of a nonempty array (0 on the empty list, which the
source never hits on the paths modelled here). -/
def npMin : List ℚ → ℚ
  | [] => 0
  | [a] => a
  | a :: b :: t => min a (npMin (b :: t))

/-- `np.max` of a nonempty array (0 on the empty list). -/
def npMax : List ℚ → ℚ
  | [] => 0
  | [a] => a
  | a :: b :: t => max a (npMax (b :: t))

/-- `np.diff` of a 1-d array: consecutive differences. -/
def npDiff : List ℚ → List ℚ
  | a :: b :: t => (b - a) :: npDiff (b :: t)
  | _ => []

/-- `self.epochs[si]` with `si = np.argsort(self.epochs)` (source line 288):
the epochs in non-decreasing order. -/
def sortQ (l : List ℚ) : List ℚ := l.insertionSort (· ≤ ·)

/-- The minimum spacing between consecutive sorted epochs,
`np.diff(self.epochs[si]).min()` (source line 289). -/
def minSpacing (epochs : List ℚ) : ℚ := npMin (npDiff (sortQ epochs))

/-- Source line 289: `minper = max(2, 2 * np.diff(self.epochs[si]).min())`.
The same value is reused, unchanged, by the second (detrended) pass. -/
def minper (epochs : List ℚ) : ℚ := max 2 (2 * minSpacing epochs)

/-- Source line 290: `maxper = (np.max(self.epochs) - np.min(self.epochs))*3.`
(first pass only). -/
def maxper1 (epochs : List ℚ) : ℚ := (npMax epochs - npMin epochs) * 3

/-- Source line 402: `maxper = 50` (second, detrended pass). -/
def maxper2 : ℚ := 50

/-- Frequency limits handed to `LombScargle.autopower` on the first pass
(source line 294): `(minimum_frequency, maximum_frequency) = (1/maxper, 1/minper)`. -/
def pass1FreqArgs (epochs : List ℚ) : ℚ × ℚ := (1 / maxper1 epochs, 1 / minper epochs)

/-- Frequency limits handed to `LombScargle.autopower` on the second, detrended
pass (source line 405): `(1/maxper, 1/minper)` with `maxper = 50` and the
first pass's `minper`. -/
def pass2FreqArgs (epochs : List ℚ) : ℚ × ℚ := (1 / maxper2, 1 / minper epochs)

lemma npMin_mem : ∀ l : List ℚ, l ≠ [] → npMin l ∈ l
  | [], h => absurd rfl h
  | [a], _ => by simp [npMin]
  | a :: b :: t, _ => by
    rcases min_cases a (npMin (b :: t)) with ⟨he, _⟩ | ⟨he, _⟩
    · simp [npMin, he]
    · have := npMin_mem (b :: t) (by simp)
      simp only [npMin, he]
      exact List.mem_cons_of_mem a this

lemma npMin_le : ∀ l : List ℚ, ∀ x ∈ l, npMin l ≤ x
  | [], x, hx => by simp at hx
  | [a], x, hx => by
    simp at hx
    simp [npMin, hx]
  | a :: b :: t, x, hx => by
    rcases List.mem_cons.mp hx with he | ht
    · simp [npMin, he]
    · have := npMin_le (b :: t) x ht
      simp only [npMin]
      exact le_trans (min_le_right _ _) this

lemma npMax_mem : ∀ l : List ℚ, l ≠ [] → npMax l ∈ l
  | [], h => absurd rfl h
  | [a], _ => by simp [npMax]
  | a :: b :: t, _ => by
    rcases max_cases a (npMax (b :: t)) with ⟨he, _⟩ | ⟨he, _⟩
    · simp [npMax, he]
    · have := npMax_mem (b :: t) (by simp)
      simp only [npMax, he]
      exact List.mem_cons_of_mem a this

lemma le_npMax : ∀ l : List ℚ, ∀ x ∈ l, x ≤ npMax l
  | [], x, hx => by simp at hx
  | [a], x, hx => by
    simp at hx
    simp [npMax, hx]
  | a :: b :: t, x, hx => by
    rcases List.mem_cons.mp hx with he | ht
    · simp [npMax, he]
    · have := le_npMax (b :: t) x ht
      simp only [npMax]
      exact le_trans this (le_max_right _ _)

lemma npDiff_ne_nil {l : List ℚ} (h : 2 ≤ l.length) : npDiff l ≠ [] := by
  match l with
  | [] => simp at h
  | [a] => simp at h
  | a :: b :: t => simp [npDiff]

/-- C4: the period-search limits of `plot_periodogram`.  The minimum testable
period is `max(2, 2 × minimum spacing of the sorted epochs)` and is shared by
both passes; the maximum testable period is `3 × (max epoch − min epoch)` on
the first pass but the fixed cap `50` on the second, detrended pass; the
frequency limits handed to the Lomb-Scargle estimator are the reciprocals of
these periods.  The conjuncts also certify that `sortQ` really sorts, that
`minSpacing` is the least consecutive gap of the sorted epochs, and that
`npMin`/`npMax` are the extrema of the epoch list, so the two passes' policies
differ exactly as claimed. -/
theorem periodogram_frequency_policy (epochs : List ℚ) (h : 2 ≤ epochs.length) :
    (sortQ epochs).Perm epochs ∧ (sortQ epochs).Sorted (· ≤ ·) ∧
    (minSpacing epochs ∈ npDiff (sortQ epochs) ∧
      ∀ d ∈ npDiff (sortQ epochs), minSpacing epochs ≤ d) ∧
    (npMin epochs ∈ epochs ∧ npMax epochs ∈ epochs ∧
      ∀ e ∈ epochs, npMin epochs ≤ e ∧ e ≤ npMax epochs) ∧
    minper epochs = max 2 (2 * minSpacing epochs) ∧
    maxper1 epochs = (npMax epochs - npMin epochs) * 3 ∧
    maxper2 = 50 ∧
    pass1FreqArgs epochs = (1 / ((npMax epochs - npMin epochs) * 3), 1 / minper epochs) ∧
    pass2FreqArgs epochs = (1 / 50, 1 / minper epochs) ∧
    (pass1FreqArgs epochs).2 = (pass2FreqArgs epochs).2 := by
  have hne : epochs ≠ [] := by
    intro hc
    rw [hc] at h
    simp at h
  refine ⟨List.perm_insertionSort _ _, List.sorted_insertionSort _ _, ⟨?_, ?_⟩,
    ⟨npMin_mem _ hne, npMax_mem _ hne, fun e he => ⟨npMin_le _ e he, le_npMax _ e he⟩⟩,
    rfl, rfl, rfl, rfl, rfl, rfl⟩
  · exact npMin_mem _ (npDiff_ne_nil (by unfold sortQ; rw [List.length_insertionSort]; exact h))
  · exact fun d hd => npMin_le _ d hd

/-- Witness for C4 at the concrete epochs `[0, 3, 10]`. -/
theorem periodogram_frequency_policy_witness :
    (sortQ [0, 3, 10]).Perm [0, 3, 10] ∧ (sortQ [0, 3, 10]).Sorted (· ≤ ·) ∧
    (minSpacing [0, 3, 10] ∈ npDiff (sortQ [0, 3, 10]) ∧
      ∀ d ∈ npDiff (sortQ [0, 3, 10]), minSpacing [0, 3, 10] ≤ d) ∧
    (npMin [0, 3, 10] ∈ [0, 3, 10] ∧ npMax [0, 3, 10] ∈ [0, 3, 10] ∧
      ∀ e ∈ [0, 3, 10], npMin [0, 3, 10] ≤ e ∧ e ≤ npMax [0, 3, 10]) ∧
    minper [0, 3, 10] = max 2 (2 * minSpacing [0, 3, 10]) ∧
    maxper1 [0, 3, 10] = (npMax [0, 3, 10] - npMin [0, 3, 10]) * 3 ∧
    maxper2 = 50 ∧
    pass1FreqArgs [0, 3, 10] =
      (1 / ((npMax [0, 3, 10] - npMin [0, 3, 10]) * 3), 1 / minper [0, 3, 10]) ∧
    pass2FreqArgs [0, 3, 10] = (1 / 50, 1 / minper [0, 3, 10]) ∧
    (pass1FreqArgs [0, 3, 10]).2 = (pass2FreqArgs [0, 3, 10]).2 :=
  periodogram_frequency_policy [0, 3, 10] (by simp)

/-- One phase-folded point of the binning block: the folded phase, the residual
value being binned, and that point's measurement uncertainty (`dataerr`). -/
structure OCPoint where
  phase : ℚ
  resid : ℚ
  err : ℚ
deriving DecidableEq, Repr, Inhabited

/-- Source lines 299/445: `newphase = epochs/per % 1`, paired with the residual
and uncertainty arrays (`residuals` is `self.residuals` on the first pass and
the detrended residuals on the second). -/
def foldPts (epochs residuals errs : List ℚ) (per : ℚ) : List OCPoint :=
  (epochs.zip (residuals.zip errs)).map
    (fun t => ⟨Int.fract (t.1 / per), t.2.1, t.2.2⟩)

/-- Source lines 372/465: `si = np.argsort(newphase)`; indexing the three
arrays by `si` reorders the points by increasing phase. -/
def sortByPhase (pts : List OCPoint) : List OCPoint :=
  pts.insertionSort (fun p q => p.phase ≤ q.phase)

/-- Source lines 374/467: `bins = np.linspace(0, 1, 8)`, the 8 bin edges
`0, 1/7, …, 1`. -/
def binEdges : List ℚ := (List.range 8).map (fun j => (j : ℚ) / 7)

/-- `np.digitize(x, edges)` for increasing `edges` (default `right=False`):
the number of edges `≤ x`, i.e. the index `i` with `edges[i-1] ≤ x < edges[i]`. -/
def npDigitize (x : ℚ) (edges : List ℚ) : ℕ :=
  (edges.filter (fun e => decide (e ≤ x))).length

/-- Source lines 379/472: `mask = np.digitize(newphase[si], bins) == i`, i.e.
the phase-sorted points landing in bin `i`. -/
def binSelect (pts : List OCPoint) (i : ℕ) : List OCPoint :=
  (sortByPhase pts).filter (fun p => decide (npDigitize p.phase binEdges = i))

/-- Outcome of one bin of the binning block.  `np.std` is `sqrt` of the mean
squared deviation; since that square root is irrational in general, `multiPt`
carries the mean together with the **square** of `np.std` (the mean squared
deviation), which determines `np.std` uniquely as its nonnegative root. -/
inductive BinStat where
  | nanBin : BinStat
  | singlePt : ℚ → ℚ → BinStat
  | multiPt : ℚ → ℚ → BinStat
deriving DecidableEq, Repr

/-- The square of `np.std(xs)`: the mean of the squared deviations from the
mean. -/
def npStdSq (xs : List ℚ) : ℚ := (xs.map (fun x => (x - npMean xs) ^ 2)).sum / xs.length

/-- Source lines 378-388 (and identically 471-481), the body of the binning
loop for bin `i`: more than one selected point gives `(np.mean, np.std)` of
the selected residuals; exactly one gives that residual and that point's own
`dataerr`; none gives `(np.nan, np.nan)`. -/
def binStat (pts : List OCPoint) (i : ℕ) : BinStat :=
  let sel := binSelect pts i
  if 1 < sel.length then
    BinStat.multiPt (npMean (sel.map OCPoint.resid)) (npStdSq (sel.map OCPoint.resid))
  else if sel.length = 1 then
    BinStat.singlePt (sel.headD default).resid (sel.headD default).err
  else
    BinStat.nanBin

lemma binEdges_eq :
    binEdges = [0, 1/7, 2/7, 3/7, 4/7, 5/7, 6/7, 1] := by
  norm_num [binEdges, List.range_succ]

lemma npDigitize_closed_form (x : ℚ) : npDigitize x binEdges =
    if x < 0 then 0 else if x < 1/7 then 1 else if x < 2/7 then 2
    else if x < 3/7 then 3 else if x < 4/7 then 4 else if x < 5/7 then 5
    else if x < 6/7 then 6 else if x < 1 then 7 else 8 := by
  unfold npDigitize
  rw [binEdges_eq]
  split_ifs with h0 h1 h2 h3 h4 h5 h6 h7
  · simp [List.filter_cons, show ¬((0:ℚ) ≤ x) by linarith, show ¬((7:ℚ)⁻¹ ≤ x) by rw [inv_eq_one_div]; linarith,
      show ¬((2:ℚ)/7 ≤ x) by linarith, show ¬((3:ℚ)/7 ≤ x) by linarith,
      show ¬((4:ℚ)/7 ≤ x) by linarith, show ¬((5:ℚ)/7 ≤ x) by linarith,
      show ¬((6:ℚ)/7 ≤ x) by linarith, show ¬((1:ℚ) ≤ x) by linarith]
  · simp [List.filter_cons, show ((0:ℚ) ≤ x) by linarith, show ¬((7:ℚ)⁻¹ ≤ x) by rw [inv_eq_one_div]; linarith,
      show ¬((2:ℚ)/7 ≤ x) by linarith, show ¬((3:ℚ)/7 ≤ x) by linarith,
      show ¬((4:ℚ)/7 ≤ x) by linarith, show ¬((5:ℚ)/7 ≤ x) by linarith,
      show ¬((6:ℚ)/7 ≤ x) by linarith, show ¬((1:ℚ) ≤ x) by linarith]
  · simp [List.filter_cons, show ((0:ℚ) ≤ x) by linarith, show ((7:ℚ)⁻¹ ≤ x) by rw [inv_eq_one_div]; linarith,
      show ¬((2:ℚ)/7 ≤ x) by linarith, show ¬((3:ℚ)/7 ≤ x) by linarith,
      show ¬((4:ℚ)/7 ≤ x) by linarith, show ¬((5:ℚ)/7 ≤ x) by linarith,
      show ¬((6:ℚ)/7 ≤ x) by linarith, show ¬((1:ℚ) ≤ x) by linarith]
  · simp [List.filter_cons, show ((0:ℚ) ≤ x) by linarith, show ((7:ℚ)⁻¹ ≤ x) by rw [inv_eq_one_div]; linarith,
      show ((2:ℚ)/7 ≤ x) by linarith, show ¬((3:ℚ)/7 ≤ x) by linarith,
      show ¬((4:ℚ)/7 ≤ x) by linarith, show ¬((5:ℚ)/7 ≤ x) by linarith,
      show ¬((6:ℚ)/7 ≤ x) by linarith, show ¬((1:ℚ) ≤ x) by linarith]
  · simp [List.filter_cons, show ((0:ℚ) ≤ x) by linarith, show ((7:ℚ)⁻¹ ≤ x) by rw [inv_eq_one_div]; linarith,
      show ((2:ℚ)/7 ≤ x) by linarith, show ((3:ℚ)/7 ≤ x) by linarith,
      show ¬((4:ℚ)/7 ≤ x) by linarith, show ¬((5:ℚ)/7 ≤ x) by linarith,
      show ¬((6:ℚ)/7 ≤ x) by linarith, show ¬((1:ℚ) ≤ x) by linarith]
  · simp [List.filter_cons, show ((0:ℚ) ≤ x) by linarith, show ((7:ℚ)⁻¹ ≤ x) by rw [inv_eq_one_div]; linarith,
      show ((2:ℚ)/7 ≤ x) by linarith, show ((3:ℚ)/7 ≤ x) by linarith,
      show ((4:ℚ)/7 ≤ x) by linarith, show ¬((5:ℚ)/7 ≤ x) by linarith,
      show ¬((6:ℚ)/7 ≤ x) by linarith, show ¬((1:ℚ) ≤ x) by linarith]
  · simp [List.filter_cons, show ((0:ℚ) ≤ x) by linarith, show ((7:ℚ)⁻¹ ≤ x) by rw [inv_eq_one_div]; linarith,
      show ((2:ℚ)/7 ≤ x) by linarith, show ((3:ℚ)/7 ≤ x) by linarith,
      show ((4:ℚ)/7 ≤ x) by linarith, show ((5:ℚ)/7 ≤ x) by linarith,
      show ¬((6:ℚ)/7 ≤ x) by linarith, show ¬((1:ℚ) ≤ x) by linarith]
  · simp [List.filter_cons, show ((0:ℚ) ≤ x) by linarith, show ((7:ℚ)⁻¹ ≤ x) by rw [inv_eq_one_div]; linarith,
      show ((2:ℚ)/7 ≤ x) by linarith, show ((3:ℚ)/7 ≤ x) by linarith,
      show ((4:ℚ)/7 ≤ x) by linarith, show ((5:ℚ)/7 ≤ x) by linarith,
      show ((6:ℚ)/7 ≤ x) by linarith, show ¬((1:ℚ) ≤ x) by linarith]
  · simp [List.filter_cons, show ((0:ℚ) ≤ x) by linarith, show ((7:ℚ)⁻¹ ≤ x) by rw [inv_eq_one_div]; linarith,
      show ((2:ℚ)/7 ≤ x) by linarith, show ((3:ℚ)/7 ≤ x) by linarith,
      show ((4:ℚ)/7 ≤ x) by linarith, show ((5:ℚ)/7 ≤ x) by linarith,
      show ((6:ℚ)/7 ≤ x) by linarith, show ((1:ℚ) ≤ x) by linarith]

lemma npDigitize_eq_zero_iff (x : ℚ) : npDigitize x binEdges = 0 ↔ x < 0 := by
  by_cases hx : x < 0
  · rw [npDigitize_closed_form, if_pos hx]
    simp [hx]
  · have hne : npDigitize x binEdges ≠ 0 := by
      rw [npDigitize_closed_form, if_neg hx]
      split_ifs <;> omega
    simp only [hne, hx, iff_self]

set_option maxHeartbeats 1000000 in
lemma npDigitize_eq_iff (x : ℚ) (i : ℕ) (h1 : 1 ≤ i) (h7 : i ≤ 7) :
    npDigitize x binEdges = i ↔ ((i : ℚ) - 1) / 7 ≤ x ∧ x < (i : ℚ) / 7 := by
  rw [npDigitize_closed_form]
  interval_cases i <;> push_cast <;> norm_num <;> split_ifs with h0 h1 h2 h3 h4 h5 h6 h7 <;>
    first
      | (constructor
         · intro hh
           exact hh.elim
         · rintro ⟨ha, hb⟩
           exfalso
           linarith)
      | (constructor
         · intro hh
           exact absurd hh (by omega)
         · rintro ⟨ha, hb⟩
           exfalso
           linarith)
      | (constructor
         · intro hh
           constructor <;> linarith
         · intro hh
           trivial)

lemma foldPts_phase_mem {epochs residuals errs : List ℚ} {per : ℚ} {p : OCPoint}
    (hp : p ∈ foldPts epochs residuals errs per) : 0 ≤ p.phase ∧ p.phase < 1 := by
  obtain ⟨t, _, rfl⟩ := List.mem_map.mp hp
  exact ⟨Int.fract_nonneg _, Int.fract_lt_one _⟩

lemma mem_sortByPhase {pts : List OCPoint} {p : OCPoint} :
    p ∈ sortByPhase pts ↔ p ∈ pts :=
  List.mem_insertionSort _

/-- C10: in both phase-folding binning passes the bin at index 0 receives zero
points for every input, because every folded phase lies in `[0,1)` while
`np.digitize` against edges starting at 0 assigns index 0 only to phases
strictly below 0 — so the first binned mean and standard deviation are always
the NaN pair.  (Both passes run the identical lines 374-388 / 467-481 with
different residual arrays, which this statement quantifies over.) -/
theorem first_bin_always_nan (epochs residuals errs : List ℚ) (per : ℚ) :
    (∀ p ∈ foldPts epochs residuals errs per, 0 ≤ p.phase ∧ p.phase < 1) ∧
    (∀ x : ℚ, npDigitize x binEdges = 0 ↔ x < 0) ∧
    binSelect (foldPts epochs residuals errs per) 0 = [] ∧
    binStat (foldPts epochs residuals errs per) 0 = BinStat.nanBin := by
  have hsel : binSelect (foldPts epochs residuals errs per) 0 = [] := by
    apply List.filter_eq_nil_iff.mpr
    intro p hp
    have hmem : p ∈ foldPts epochs residuals errs per := mem_sortByPhase.mp hp
    have h0 := (foldPts_phase_mem hmem).1
    simp only [decide_eq_true_eq]
    rw [npDigitize_eq_zero_iff]
    linarith
  refine ⟨fun p hp => foldPts_phase_mem hp, fun x => npDigitize_eq_zero_iff x, hsel, ?_⟩
  unfold binStat
  rw [hsel]
  simp

/-- C5: each phase-folding binning pass (lines 371-388, repeated verbatim at
464-481 for the detrended residuals) folds to `phase = epoch/P mod 1 ∈ [0,1)`,
partitions by `np.digitize` against the 8 edges of `[0,1]` — bin `i`
(`1 ≤ i ≤ 7`) receiving exactly the points with phase in `[(i−1)/7, i/7)` — and
reduces each bin by count: zero points give the NaN pair, exactly one point
gives that residual with that point's own measurement uncertainty, and two or
more points give the mean and the standard deviation (recorded as its square,
the mean squared deviation) of the residuals in the bin. -/
theorem phase_binning_cases (epochs residuals errs : List ℚ) (per : ℚ) (i : ℕ)
    (hlo : 1 ≤ i) (hhi : i ≤ 7) :
    (∀ p ∈ foldPts epochs residuals errs per, 0 ≤ p.phase ∧ p.phase < 1) ∧
    (∀ p : OCPoint, p ∈ binSelect (foldPts epochs residuals errs per) i ↔
      p ∈ foldPts epochs residuals errs per ∧
        ((i : ℚ) - 1) / 7 ≤ p.phase ∧ p.phase < (i : ℚ) / 7) ∧
    ((binSelect (foldPts epochs residuals errs per) i).length = 0 →
      binStat (foldPts epochs residuals errs per) i = BinStat.nanBin) ∧
    (∀ p : OCPoint, binSelect (foldPts epochs residuals errs per) i = [p] →
      binStat (foldPts epochs residuals errs per) i = BinStat.singlePt p.resid p.err ∧
        p ∈ foldPts epochs residuals errs per) ∧
    (2 ≤ (binSelect (foldPts epochs residuals errs per) i).length →
      binStat (foldPts epochs residuals errs per) i =
        BinStat.multiPt
          (((binSelect (foldPts epochs residuals errs per) i).map OCPoint.resid).sum /
            ((binSelect (foldPts epochs residuals errs per) i).length : ℚ))
          ((((binSelect (foldPts epochs residuals errs per) i).map OCPoint.resid).map
              (fun x =>
                (x - ((binSelect (foldPts epochs residuals errs per) i).map
                    OCPoint.resid).sum /
                  ((binSelect (foldPts epochs residuals errs per) i).length : ℚ)) ^ 2)).sum /
            ((binSelect (foldPts epochs residuals errs per) i).length : ℚ))) := by
  refine ⟨fun p hp => foldPts_phase_mem hp, ?_, ?_, ?_, ?_⟩
  · intro p
    unfold binSelect
    rw [List.mem_filter, mem_sortByPhase, decide_eq_true_eq, npDigitize_eq_iff p.phase i hlo hhi]
  · intro hlen
    have hsel : binSelect (foldPts epochs residuals errs per) i = [] :=
      List.length_eq_zero.mp hlen
    simp [binStat, hsel]
  · intro p hsel
    constructor
    · simp [binStat, hsel]
    · have hp : p ∈ binSelect (foldPts epochs residuals errs per) i := by
        rw [hsel]
        exact List.mem_singleton_self p
      unfold binSelect at hp
      exact mem_sortByPhase.mp (List.mem_of_mem_filter hp)
  · intro hlen
    have h1 : 1 < (binSelect (foldPts epochs residuals errs per) i).length := by omega
    simp only [binStat, if_pos h1, npMean, npStdSq, List.length_map]

/-- Witness for C5 at a concrete input: epochs `[0,1,2,3]`, residuals
`[1,2,3,4]`, uncertainties `[1,1,1,1]`, period `2`, bin `1`. -/
theorem phase_binning_cases_witness :
    (∀ p ∈ foldPts [0, 1, 2, 3] [1, 2, 3, 4] [1, 1, 1, 1] 2, 0 ≤ p.phase ∧ p.phase < 1) ∧
    (∀ p : OCPoint, p ∈ binSelect (foldPts [0, 1, 2, 3] [1, 2, 3, 4] [1, 1, 1, 1] 2) 1 ↔
      p ∈ foldPts [0, 1, 2, 3] [1, 2, 3, 4] [1, 1, 1, 1] 2 ∧
        (((1 : ℕ) : ℚ) - 1) / 7 ≤ p.phase ∧ p.phase < ((1 : ℕ) : ℚ) / 7) ∧
    ((binSelect (foldPts [0, 1, 2, 3] [1, 2, 3, 4] [1, 1, 1, 1] 2) 1).length = 0 →
      binStat (foldPts [0, 1, 2, 3] [1, 2, 3, 4] [1, 1, 1, 1] 2) 1 = BinStat.nanBin) ∧
    (∀ p : OCPoint, binSelect (foldPts [0, 1, 2, 3] [1, 2, 3, 4] [1, 1, 1, 1] 2) 1 = [p] →
      binStat (foldPts [0, 1, 2, 3] [1, 2, 3, 4] [1, 1, 1, 1] 2) 1 =
          BinStat.singlePt p.resid p.err ∧
        p ∈ foldPts [0, 1, 2, 3] [1, 2, 3, 4] [1, 1, 1, 1] 2) ∧
    (2 ≤ (binSelect (foldPts [0, 1, 2, 3] [1, 2, 3, 4] [1, 1, 1, 1] 2) 1).length →
      binStat (foldPts [0, 1, 2, 3] [1, 2, 3, 4] [1, 1, 1, 1] 2) 1 =
        BinStat.multiPt
          (((binSelect (foldPts [0, 1, 2, 3] [1, 2, 3, 4] [1, 1, 1, 1] 2) 1).map
              OCPoint.resid).sum /
            ((binSelect (foldPts [0, 1, 2, 3] [1, 2, 3, 4] [1, 1, 1, 1] 2) 1).length : ℚ))
          ((((binSelect (foldPts [0, 1, 2, 3] [1, 2, 3, 4] [1, 1, 1, 1] 2) 1).map
                OCPoint.resid).map
              (fun x =>
                (x - ((binSelect (foldPts [0, 1, 2, 3] [1, 2, 3, 4] [1, 1, 1, 1] 2) 1).map
                    OCPoint.resid).sum /
                  ((binSelect
                      (foldPts [0, 1, 2, 3] [1, 2, 3, 4] [1, 1, 1, 1] 2) 1).length : ℚ)) ^ 2)).sum /
            ((binSelect (foldPts [0, 1, 2, 3] [1, 2, 3, 4] [1, 1, 1, 1] 2) 1).length : ℚ))) :=
  phase_binning_cases [0, 1, 2, 3] [1, 2, 3, 4] [1, 1, 1, 1] 2 1 (by decide) (by decide)

/-- The parameter keys of the bounds/prior dictionaries: the source uses the
string keys `'m'` (slope/period) and `'b'` (intercept/mid-transit time). -/
inductive BKey where
  | m : BKey
  | b : BKey
deriving DecidableEq, Repr

/-- A Python dict from parameter keys to two-element `[low, high]` (bounds) or
`(mean, stdev)` (prior) pairs, as an association list. -/
abbrev PDict : Type := List (BKey × (ℚ × ℚ))

/-- Python dict lookup `d[k]`, returning `none` where Python raises `KeyError`. -/
def dictFind (d : PDict) (k : BKey) : Option (ℚ × ℚ) :=
  (List.find? (fun p => decide (p.1 = k)) d).map Prod.snd

/-- The Python exceptions the constructor path can raise:
`AttributeError` from `None.copy()` (line 76) and `KeyError k` from a missing
dict key. -/
inductive PyError where
  | attributeError : PyError
  | keyError : BKey → PyError
deriving DecidableEq, Repr

/-- The state of a `linear_fitter` at the point where `fit_nested` invokes
`ReactiveNestedSampler(...).run(...)` (line 103): the stored arrays, the
resolved bounds pairs for `'m'` and `'b'`, the mapped epochs, and the literal
arguments of the `run` call. -/
structure FitState where
  data : List ℚ
  dataerr : List ℚ
  bounds_m : ℚ × ℚ
  bounds_b : ℚ × ℚ
  epochs : List ℤ
  max_ncalls : ℕ
  min_num_live_points : ℕ
deriving DecidableEq, Repr

/-- Source lines 58-103: `linear_fitter.__init__` followed by the part of
`fit_nested` that precedes the external sampler call.

* line 76 `self.prior = prior.copy()` runs unconditionally, so `prior = None`
  raises `AttributeError` before anything else;
* lines 77-82 derive ±3σ bounds from the prior only when `bounds is None`
  (looking up `prior['m']` then `prior['b']`);
* line 91 computes the epochs, evaluating `self.bounds['b']` before
  `self.bounds['m']`, so a missing key surfaces as `KeyError` in that order;
* line 103 invokes the sampler with the literals `max_ncalls=4e5` and
  `min_num_live_points=420`.

No bounds validation of any kind occurs on this path. -/
def resolveBounds (bounds : Option PDict) (p : PDict) : Except PyError PDict :=
  match bounds with
  | some bs => Except.ok bs
  | none =>
    match dictFind p BKey.m with
    | none => Except.error (PyError.keyError BKey.m)
    | some pm =>
      match dictFind p BKey.b with
      | none => Except.error (PyError.keyError BKey.b)
      | some pb =>
        Except.ok [(BKey.m, (pm.1 - 3 * pm.2, pm.1 + 3 * pm.2)),
                   (BKey.b, (pb.1 - 3 * pb.2, pb.1 + 3 * pb.2))]

def linear_fitter_init (data dataerr : List ℚ) (bounds : Option PDict)
    (prior : Option PDict) : Except PyError FitState :=
  match prior with
  | none => Except.error PyError.attributeError
  | some p =>
    match resolveBounds bounds p with
    | Except.error e => Except.error e
    | Except.ok bs =>
      match dictFind bs BKey.b with
      | none => Except.error (PyError.keyError BKey.b)
      | some bb =>
        match dictFind bs BKey.m with
        | none => Except.error (PyError.keyError BKey.m)
        | some bm =>
          Except.ok
            { data := data
              dataerr := dataerr
              bounds_m := bm
              bounds_b := bb
              epochs := epochsOf bm bb data
              max_ncalls := 400000
              min_num_live_points := 420 }

lemma init_ok_sampler_args {data dataerr : List ℚ} {bounds prior : Option PDict}
    {s : FitState} (h : linear_fitter_init data dataerr bounds prior = Except.ok s) :
    s.max_ncalls = 400000 ∧ s.min_num_live_points = 420 := by
  unfold linear_fitter_init at h
  repeat' split at h
  all_goals first
    | (obtain rfl : _ = s := Except.ok.inj h
       exact ⟨rfl, rfl⟩)
    | exact absurd h (by simp)

/-- C6 counterexample: constructing with the degenerate bounds
`{'m': [5,5], 'b': [0,1]}` (`low == high` for `'m'`) does **not** raise any
typed `InvalidBounds` failure — the constructor performs no bounds validation
and proceeds all the way to the sampler invocation. -/
theorem invalid_bounds_not_raised :
    ∃ s : FitState,
      linear_fitter_init [0] [1]
        (some [(BKey.m, (5, 5)), (BKey.b, (0, 1))])
        (some [(BKey.m, (5, 1)), (BKey.b, (0, 1))]) = Except.ok s :=
  ⟨_, rfl⟩

/-- C6 amended: no bounds validation is performed.  Degenerate explicit bounds
(`low == high` for `'m'`) always proceed into the fit; bounds missing the key
`'b'` fail with a plain `KeyError('b')` from the dict lookup on line 91, and
bounds with `'b'` but missing `'m'` fail with `KeyError('m')` — never with a
dedicated `InvalidBounds` failure, which does not exist in the code. -/
theorem bounds_validation_behavior (data dataerr : List ℚ) (v blo bhi : ℚ) (p : PDict) :
    (∃ s, linear_fitter_init data dataerr
        (some [(BKey.m, (v, v)), (BKey.b, (blo, bhi))]) (some p) = Except.ok s) ∧
    linear_fitter_init data dataerr (some [(BKey.m, (v, v))]) (some p) =
      Except.error (PyError.keyError BKey.b) ∧
    linear_fitter_init data dataerr (some [(BKey.b, (blo, bhi))]) (some p) =
      Except.error (PyError.keyError BKey.m) :=
  ⟨⟨_, rfl⟩, rfl, rfl⟩

/-- C7 counterexample: there is no configuration input under which the sampler
is invoked with an evaluation budget other than `400000` or a live-point count
other than `420` — `fit_nested` passes the literals `max_ncalls=4e5`,
`min_num_live_points=420` (line 103), and `__init__`/`fit_nested` accept no
knob that could change them. -/
theorem sampler_args_not_configurable :
    ¬ ∃ (data dataerr : List ℚ) (bounds prior : Option PDict) (s : FitState),
        linear_fitter_init data dataerr bounds prior = Except.ok s ∧
        (s.max_ncalls ≠ 400000 ∨ s.min_num_live_points ≠ 420) := by
  rintro ⟨d, e, bs, p, s, h, hbad⟩
  obtain ⟨h1, h2⟩ := init_ok_sampler_args h
  rcases hbad with hb | hb
  · exact hb h1
  · exact hb h2

/-- C7 amended: the likelihood-evaluation budget and the minimum live-point
count are hardcoded, not caller configuration: every successful construction
reaches the sampler call with exactly `max_ncalls = 400000` and
`min_num_live_points = 420`. -/
theorem sampler_args_hardcoded (data dataerr : List ℚ) (bounds prior : Option PDict)
    (s : FitState) (h : linear_fitter_init data dataerr bounds prior = Except.ok s) :
    s.max_ncalls = 400000 ∧ s.min_num_live_points = 420 :=
  init_ok_sampler_args h

/-- The state a successful concrete construction reaches (used to witness
`sampler_args_hardcoded`). -/
def fitStateEx : FitState :=
  { data := [0]
    dataerr := [1]
    bounds_m := (1, 3)
    bounds_b := (0, 2)
    epochs := epochsOf (1, 3) (0, 2) [0]
    max_ncalls := 400000
    min_num_live_points := 420 }

/-- Witness for C7's amended theorem at a concrete input. -/
theorem sampler_args_hardcoded_witness :
    fitStateEx.max_ncalls = 400000 ∧ fitStateEx.min_num_live_points = 420 :=
  sampler_args_hardcoded [0] [1]
    (some [(BKey.m, (1, 3)), (BKey.b, (0, 2))])
    (some [(BKey.m, (1, 3)), (BKey.b, (0, 2))])
    fitStateEx rfl

/-- C8 (code bug): with bounds supplied and `prior = None` — which the
signature default `prior=None` and the docstring "prior : dict, optional"
declare acceptable — the constructor crashes at line 76 (`prior.copy()`) with
`AttributeError` instead of fitting. -/
theorem prior_none_crashes :
    linear_fitter_init [0] [1] (some [(BKey.m, (1, 2)), (BKey.b, (0, 1))]) none =
      Except.error PyError.attributeError :=
  rfl
